import Mathlib

/-!
# Verification of the CSC469 Concurrent PageRank repository

Shallow embedding of the repository's Go sources:

* `distributedPageRank.go` (the `Subgraph` structure, `distance`,
  `randClickProb`, `hyperLinkClick`, `normalizePageRankNew`, `pageRank`,
  `initPageRank`, `localizedPageRank`, `readDotFileByDomain`, `isDomain`,
  `getDomains`, `combineSubgraphs`, `main`), and
* `sequentialPageRank.go` (`readDotFile`, `initPageRank`, `pageRank`, `main`).

Modelling choices, in force throughout:

* Go `string` values are modelled as `List Char` (named `Url` below), so that
  every string operation is a structurally recursive, kernel-computable
  function.  Go's `strings.Split`, `strings.Replace`, `strings.TrimSpace`,
  `strings.Contains` are modelled by `splitOnSub`, `removeSub`, `trimC`,
  `containsSub` with the same semantics on the inputs that occur here.
* Go `map[string]T` is modelled as an association list `List (Url × T)` with
  Go's assignment semantics (`insertA` replaces the binding if the key is
  present, otherwise appends it) and Go's lookup-with-zero-value semantics
  (`lookupD`).  Go map iteration order is unspecified; the model fixes the
  insertion order, which is one of the admissible orders.
* Go `float32` arithmetic is modelled by exact rational arithmetic over `ℚ`.
  The numeric claims of the specification are stated with tolerances
  (`1e-3`, `1e-4`) that absorb the difference between 32-bit floating point
  and exact arithmetic.  `x / 0 = 0` in `ℚ`; in the Go program a float
  division by zero yields `+Inf`, but by the out-degree invariant proved
  below (claim C3) the divisor `outLinks[inNode]` is never zero in any
  reachable state, so the two semantics agree on reachable states.
* The unbounded `for {}` convergence loop of `pageRank` is modelled by the
  fuel-indexed `pageRankRun`; `pageRankRun d eps fuel g = some g'` states
  that the loop, started at `g`, exits (through its single `break`) after at
  most `fuel` iterations with final state `g'`.
* `go`/`sync.WaitGroup` scheduling is outside the embedding; the data flow
  of `main` (partition, per-partition power iteration, merge, global
  refinement) is modelled by `runPipeline`.
-/

/-- A URL (a Go string), modelled as its list of characters. -/
abbrev Url := List Char

/-- The characters of a string literal, used to write concrete `Url`s. -/
def str (s : String) : Url := s.data

/-! ## String primitives (Go `strings` package operations) -/

/-- One step of Go `strings.Split`: fuelled splitter.  The fuel is an upper
bound on the number of characters consumed; `splitOnSub` supplies `s.length`,
which is always sufficient because every step consumes at least one
character of the remaining input. -/
def splitOnSubFuel (sep : List Char) : Nat → List Char → List Char → List (List Char)
  | 0, acc, s => [acc.reverse ++ s]
  | _ + 1, acc, [] => [acc.reverse]
  | fuel + 1, acc, c :: rest =>
    if sep.isPrefixOf (c :: rest) then
      acc.reverse :: splitOnSubFuel sep fuel [] (List.drop (sep.length - 1) rest)
    else
      splitOnSubFuel sep fuel (c :: acc) rest

/-- Go `strings.Split(s, sep)` for a non-empty separator: splits around every
non-overlapping occurrence of `sep`, scanning left to right. -/
def splitOnSub (s sep : List Char) : List (List Char) :=
  splitOnSubFuel sep s.length [] s

/-- Go `strings.Replace(s, pat, "", -1)`: fuelled remover of every
non-overlapping occurrence of `pat`, scanning left to right. -/
def removeSubFuel (pat : List Char) : Nat → List Char → List Char
  | 0, s => s
  | _ + 1, [] => []
  | fuel + 1, c :: rest =>
    if pat.isPrefixOf (c :: rest) then
      removeSubFuel pat fuel (List.drop (pat.length - 1) rest)
    else
      c :: removeSubFuel pat fuel rest

/-- Go `strings.Replace(s, pat, "", -1)` (remove all occurrences). -/
def removeSub (s pat : List Char) : List Char :=
  removeSubFuel pat s.length s

/-- Go `strings.TrimSpace` (the inputs in this development are ASCII, where
`Char.isWhitespace` agrees with Go's `unicode.IsSpace`). -/
def trimC (s : List Char) : List Char :=
  ((s.dropWhile Char.isWhitespace).reverse.dropWhile Char.isWhitespace).reverse

/-- Go `strings.Contains(s, pat)`. -/
def containsSub : List Char → List Char → Bool
  | [], pat => pat.isEmpty
  | c :: rest, pat => pat.isPrefixOf (c :: rest) || containsSub rest pat

/-- The edge separator `"->"` of the dot files. -/
def arrowSep : List Char := str "->"

/-! ## Association lists (Go `map[string]T`) -/

/-- Go map read `m[k]` returning `(value, ok)`. -/
def lookupA {α : Type} : List (Url × α) → Url → Option α
  | [], _ => none
  | (k, v) :: rest, key => if k = key then some v else lookupA rest key

/-- Go map read `m[k]` where a missing key yields the zero value `d`. -/
def lookupD {α : Type} (m : List (Url × α)) (key : Url) (d : α) : α :=
  (lookupA m key).getD d

/-- Go map write `m[k] = v`: replaces the binding if `k` is present,
otherwise appends it. -/
def insertA {α : Type} : List (Url × α) → Url → α → List (Url × α)
  | [], k, v => [(k, v)]
  | (k1, v1) :: rest, k, v =>
    if k1 = k then (k, v) :: rest else (k1, v1) :: insertA rest k v

/-! ## The `Subgraph` structure (distributedPageRank.go lines 24-46) -/

/-- `type Subgraph struct` of distributedPageRank.go. -/
structure Subgraph where
  domainName : Url
  nodes : List Url
  adjacencyList : List (Url × List Url)
  outLinks : List (Url × Nat)
  pageRankOld : List (Url × ℚ)
  pageRankNew : List (Url × ℚ)
deriving DecidableEq

/-- `newSubgraph()`: all maps empty, `domainName` the zero value `""`. -/
def newSubgraph : Subgraph :=
  { domainName := [], nodes := [], adjacencyList := [], outLinks := [],
    pageRankOld := [], pageRankNew := [] }

/-! ## The power-iteration engine (distributedPageRank.go lines 72-175) -/

/-- `math.MaxFloat32`, the value `distance` returns on a length mismatch. -/
def maxFloat32 : ℚ := 340282346638528859811704183484516925440

/-- The sum of the values of a rank map, as computed by the accumulation
loops of `normalizePageRankNew` and `distance`. -/
def sumValues (m : List (Url × ℚ)) : ℚ :=
  m.foldl (fun acc p => acc + p.2) 0

/-- `distance(pageRankOld, pageRankNew)`: L1 norm of the difference, or
`math.MaxFloat32` when the lengths differ. -/
def distance (pageRankOld pageRankNew : List (Url × ℚ)) : ℚ :=
  if pageRankOld.length ≠ pageRankNew.length then maxFloat32
  else pageRankOld.foldl (fun acc p => acc + |p.2 - lookupD pageRankNew p.1 0|) 0

/-- `randClickProb(subGraph, d) = (1 - d) * (1 / |nodes|)`. -/
def randClickProb (subGraph : Subgraph) (d : ℚ) : ℚ :=
  (1 - d) * ((1 : ℚ) / ((subGraph.nodes.length : ℕ) : ℚ))

/-- `hyperLinkClick(subGraph, node, d)`: `d` times the prestige, the sum over
the recorded in-neighbours of `rankOld[inNode] / outLinks[inNode]`; zero when
`node` has no entry in the adjacency list. -/
def hyperLinkClick (subGraph : Subgraph) (node : Url) (d : ℚ) : ℚ :=
  let prestige : ℚ :=
    match lookupA subGraph.adjacencyList node with
    | none => 0
    | some inNodes =>
      inNodes.foldl
        (fun acc inNode =>
          acc + lookupD subGraph.pageRankOld inNode 0 /
            ((lookupD subGraph.outLinks inNode 0 : ℕ) : ℚ)) 0
  d * prestige

/-- `normalizePageRankNew(subGraph)`: divide every `pageRankNew` value by
their sum. -/
def normalizePageRankNew (subGraph : Subgraph) : Subgraph :=
  let sum := sumValues subGraph.pageRankNew
  { subGraph with pageRankNew := subGraph.pageRankNew.map (fun p => (p.1, p.2 / sum)) }

/-- One pass of the `for {}` body of `pageRank`: snapshot `pageRankOld :=
deepCopyMap(pageRankNew)`, recompute `pageRankNew[url]` for every `url` in
`nodes`, then normalize.  (`deepCopyMap` is the identity on the immutable
association-list model.) -/
def pageRankIter (d : ℚ) (subGraph : Subgraph) : Subgraph :=
  let g := { subGraph with pageRankOld := subGraph.pageRankNew }
  let newRanks := g.nodes.foldl
    (fun m url => insertA m url (randClickProb g d + hyperLinkClick g url d))
    g.pageRankNew
  normalizePageRankNew { g with pageRankNew := newRanks }

/-- `pageRank(subGraph, d, epsilon)`: the unbounded convergence loop, indexed
by fuel.  `some g'` means the loop exits (through its single
`break`, taken when the L1 distance drops below `epsilon`) within `fuel`
iterations; `none` means it is still running after `fuel` iterations. -/
def pageRankRun (d epsilon : ℚ) : Nat → Subgraph → Option Subgraph
  | 0, _ => none
  | fuel + 1, subGraph =>
    let g := pageRankIter d subGraph
    if distance g.pageRankOld g.pageRankNew < epsilon then some g
    else pageRankRun d epsilon fuel g

/-- `initPageRank(subGraph)`: set `pageRankNew[node] = 1/|nodes|` for every
node. -/
def initPageRank (subGraph : Subgraph) : Subgraph :=
  let numNodes := subGraph.nodes.length
  { subGraph with
    pageRankNew := subGraph.nodes.foldl
      (fun m node => insertA m node ((1 : ℚ) / ((numNodes : ℕ) : ℚ)))
      subGraph.pageRankNew }

/-- `localizedPageRank(subGraph)`: initialize, then run `pageRank` with
`d = 0.9` and `epsilon = 0.0001` (the `wg.Done()` signal is scheduling, not
data flow). -/
def localizedPageRank (fuel : Nat) (subGraph : Subgraph) : Option Subgraph :=
  pageRankRun (9 / 10) (1 / 10000) fuel (initPageRank subGraph)

/-! ## Reading dot files (distributedPageRank.go lines 182-231,
sequentialPageRank.go lines 535-569) -/

/-- `isDomain(src, domain)`:
`strings.Contains(src, domain + ".calpoly.edu")`. -/
def isDomain (src domain : Url) : Bool :=
  containsSub src (domain ++ str ".calpoly.edu")

/-- The shared body of the two dot-file readers once a line has produced an
edge `(src, dest)`: record first sightings in `visitedURL`/`nodes` (a fresh
source also gets `outLinks[src] = 0`), append `src` to
`adjacencyList[dest]`, and increment `outLinks[src]` (`m[k]++` on a missing
key stores 1, as in Go). -/
def addParsedEdge (st : List Url × Subgraph) (src dest : Url) : List Url × Subgraph :=
  let st1 := if st.1.contains src then st
    else (src :: st.1,
      { st.2 with nodes := st.2.nodes ++ [src], outLinks := insertA st.2.outLinks src 0 })
  let st2 := if st1.1.contains dest then st1
    else (dest :: st1.1, { st1.2 with nodes := st1.2.nodes ++ [dest] })
  let g3 := { st2.2 with
    adjacencyList := insertA st2.2.adjacencyList dest
      (lookupD st2.2.adjacencyList dest [] ++ [src]) }
  (st2.1, { g3 with outLinks := insertA g3.outLinks src (lookupD g3.outLinks src 0 + 1) })

/-- One line of `readDotFileByDomain`: split on `"->"`; if that yields
exactly two tokens and the trimmed source contains
`domain + ".calpoly.edu"`, process the edge (the destination token has every
`";"` removed, then is trimmed). -/
def lineStepByDomain (domain : Url) (st : List Url × Subgraph) (line : Url) :
    List Url × Subgraph :=
  match splitOnSub line arrowSep with
  | [s0, s1] =>
    let src := trimC s0
    if isDomain src domain then addParsedEdge st src (trimC (removeSub s1 (str ";")))
    else st
  | _ => st

/-- `readDotFileByDomain(path, domain)`, with the file contents given as the
list of its lines. -/
def readDotFileByDomain (lines : List Url) (domain : Url) : Subgraph :=
  (lines.foldl (lineStepByDomain domain) ([], { newSubgraph with domainName := domain })).2

/-- One line of the sequential `readDotFile`: split on `"->"`; if that
yields exactly two tokens, process the edge unconditionally. -/
def lineStep (st : List Url × Subgraph) (line : Url) : List Url × Subgraph :=
  match splitOnSub line arrowSep with
  | [s0, s1] => addParsedEdge st (trimC s0) (trimC (removeSub s1 (str ";")))
  | _ => st

/-- `readDotFile(path)` of sequentialPageRank.go (the whole-graph reader);
the package-level maps are the fields of the returned `Subgraph`. -/
def readDotFile (lines : List Url) : Subgraph :=
  (lines.foldl lineStep ([], newSubgraph)).2

/-- Go `strings.Replace(s, "https://", "", -1)` then the same for
`"http://"`, as in `getDomains`. -/
def stripScheme (s : Url) : Url :=
  removeSub (removeSub s (str "https://")) (str "http://")

/-- The domain keys `getDomains` extracts from one source URL: split on
`'.'`, and for every segment equal to `"calpoly"` at a positive index, take
the preceding segment with any scheme prefix removed. -/
def srcDomainKeys (src : Url) : List Url :=
  let domains := splitOnSub src (str ".")
  domains.enum.filterMap (fun p =>
    if p.2 = str "calpoly" ∧ 0 < p.1 then some (stripScheme (domains.getD (p.1 - 1) []))
    else none)

/-! ## Merging (distributedPageRank.go lines 269-321) -/

/-- One entry of one subgraph inside a merge loop of `combineSubgraphs`:
copy the entry into the accumulator iff its key passes `isDomain` for the
exporting subgraph's own `domainName` and has not been visited yet. -/
def mergeStep {α : Type} (domainName : Url) (st : List Url × List (Url × α))
    (entry : Url × α) : List Url × List (Url × α) :=
  if isDomain entry.1 domainName && !(st.1.contains entry.1) then
    (entry.1 :: st.1, insertA st.2 entry.1 entry.2)
  else st

/-- One of the three map-merging loops of `combineSubgraphs` (they are
textually identical in the Go source, for `adjacencyList`, `outLinks` and
`pageRankNew`): a fresh `visitedURL` set, then every entry of every
subgraph in order. -/
def mergeMaps {α : Type} (subgraphs : List Subgraph)
    (proj : Subgraph → List (Url × α)) : List (Url × α) :=
  (subgraphs.foldl (fun st g => (proj g).foldl (mergeStep g.domainName) st) ([], [])).2

/-- One node inside the node-merging loop of `combineSubgraphs`. -/
def mergeNodesStep (domainName : Url) (st : List Url × List Url) (url : Url) :
    List Url × List Url :=
  if isDomain url domainName && !(st.1.contains url) then (url :: st.1, st.2 ++ [url])
  else st

/-- The node-merging loop of `combineSubgraphs`. -/
def mergeNodes (subgraphs : List Subgraph) : List Url :=
  (subgraphs.foldl (fun st g => g.nodes.foldl (mergeNodesStep g.domainName) st) ([], [])).2

/-- `combineSubgraphs(subgraphs)`: merge `nodes`, `adjacencyList`,
`outLinks` and `pageRankNew` with per-map deduplication; `pageRankOld` is
never merged and `domainName` keeps the zero value from `newSubgraph()`. -/
def combineSubgraphs (subgraphs : List Subgraph) : Subgraph :=
  { newSubgraph with
    nodes := mergeNodes subgraphs,
    adjacencyList := mergeMaps subgraphs (fun g => g.adjacencyList),
    outLinks := mergeMaps subgraphs (fun g => g.outLinks),
    pageRankNew := mergeMaps subgraphs (fun g => g.pageRankNew) }

/-! ## The two mains -/

/-- The data flow of `main` of distributedPageRank.go: build one partition
per domain key, run `localizedPageRank` on each (the goroutines joined by
`wg.Wait()`), merge with `combineSubgraphs`, renormalize, and run the global
refinement `pageRank(globalGraph, 0.9, 0.0001)`.  `domains` is the list
produced by `getDomains`, whose order is a Go map iteration order and hence
unspecified; it is a parameter here. -/
def runPipeline (fuel : Nat) (lines : List Url) (domains : List Url) : Option Subgraph :=
  let subgraphs := (domains.map (readDotFileByDomain lines)).mapM (localizedPageRank fuel)
  subgraphs.bind (fun converged =>
    pageRankRun (9 / 10) (1 / 10000) fuel (normalizePageRankNew (combineSubgraphs converged)))

/-- The data flow of `main` of sequentialPageRank.go: read the whole graph,
initialize, and run `pageRank(0.9, 0.0001)`. -/
def runSequential (fuel : Nat) (lines : List Url) : Option Subgraph :=
  pageRankRun (9 / 10) (1 / 10000) fuel (initPageRank (readDotFile lines))

/-- The `pageRankNew` value of a node in the result of a run (`0`, the Go
zero value, when absent or when the run did not finish). -/
def rankOf (result : Option Subgraph) (url : Url) : ℚ :=
  match result with
  | none => 0
  | some g => lookupD g.pageRankNew url 0

/-! ## Evaluation mirror

The arithmetic of `ℚ` (`Rat.add`, `Rat.mul`, ...) is `@[irreducible]` in
this toolchain, so concrete runs of the model cannot be evaluated by
`decide` directly.  The definitions below mirror the engine with arithmetic
expressed through `Rat.divInt` (which does reduce), and are proved equal to
the model functions; every concrete evaluation in this file goes through
this mirror and one of the equality lemmas.  The mirror is proof
infrastructure only — the embedding of the Go source is the section above. -/

def qadd (x y : ℚ) : ℚ :=
  Rat.divInt (x.num * (y.den : ℤ) + y.num * (x.den : ℤ)) ((x.den : ℤ) * (y.den : ℤ))

def qsub (x y : ℚ) : ℚ :=
  Rat.divInt (x.num * (y.den : ℤ) - y.num * (x.den : ℤ)) ((x.den : ℤ) * (y.den : ℤ))

def qmul (x y : ℚ) : ℚ := Rat.divInt (x.num * y.num) ((x.den : ℤ) * (y.den : ℤ))

def qdiv (x y : ℚ) : ℚ := Rat.divInt (x.num * (y.den : ℤ)) ((x.den : ℤ) * y.num)

def qabs (x : ℚ) : ℚ := Rat.divInt ((x.num.natAbs : ℕ) : ℤ) ((x.den : ℤ))

def qblt (x y : ℚ) : Bool := decide (x.num * (y.den : ℤ) < y.num * (x.den : ℤ))

def natQ (n : ℕ) : ℚ := Rat.divInt ((n : ℕ) : ℤ) 1

/-- `dE = 0.9`, in mirror form. -/
def dE : ℚ := Rat.divInt 9 10

/-- `epsE = 0.0001`, in mirror form. -/
def epsE : ℚ := Rat.divInt 1 10000

def sumValuesE (m : List (Url × ℚ)) : ℚ := m.foldl (fun acc p => qadd acc p.2) 0

def distanceE (pageRankOld pageRankNew : List (Url × ℚ)) : ℚ :=
  if pageRankOld.length ≠ pageRankNew.length then maxFloat32
  else pageRankOld.foldl (fun acc p => qadd acc (qabs (qsub p.2 (lookupD pageRankNew p.1 0)))) 0

def randClickProbE (subGraph : Subgraph) : ℚ :=
  qmul (qsub 1 dE) (qdiv 1 (natQ subGraph.nodes.length))

def hyperLinkClickE (subGraph : Subgraph) (node : Url) : ℚ :=
  let prestige : ℚ :=
    match lookupA subGraph.adjacencyList node with
    | none => 0
    | some inNodes =>
      inNodes.foldl
        (fun acc inNode =>
          qadd acc (qdiv (lookupD subGraph.pageRankOld inNode 0)
            (natQ (lookupD subGraph.outLinks inNode 0)))) 0
  qmul dE prestige

def normalizePageRankNewE (subGraph : Subgraph) : Subgraph :=
  let sum := sumValuesE subGraph.pageRankNew
  { subGraph with pageRankNew := subGraph.pageRankNew.map (fun p => (p.1, qdiv p.2 sum)) }

def pageRankIterE (subGraph : Subgraph) : Subgraph :=
  let g := { subGraph with pageRankOld := subGraph.pageRankNew }
  let newRanks := g.nodes.foldl
    (fun m url => insertA m url (qadd (randClickProbE g) (hyperLinkClickE g url)))
    g.pageRankNew
  normalizePageRankNewE { g with pageRankNew := newRanks }

def pageRankRunE : Nat → Subgraph → Option Subgraph
  | 0, _ => none
  | fuel + 1, subGraph =>
    let g := pageRankIterE subGraph
    if qblt (distanceE g.pageRankOld g.pageRankNew) epsE = true then some g
    else pageRankRunE fuel g

def initPageRankE (subGraph : Subgraph) : Subgraph :=
  let numNodes := subGraph.nodes.length
  { subGraph with
    pageRankNew := subGraph.nodes.foldl
      (fun m node => insertA m node (qdiv 1 (natQ numNodes))) subGraph.pageRankNew }

def localizedPageRankE (fuel : Nat) (subGraph : Subgraph) : Option Subgraph :=
  pageRankRunE fuel (initPageRankE subGraph)

def runPipelineE (fuel : Nat) (lines : List Url) (domains : List Url) : Option Subgraph :=
  let subgraphs := (domains.map (readDotFileByDomain lines)).mapM (localizedPageRankE fuel)
  subgraphs.bind (fun converged =>
    pageRankRunE fuel (normalizePageRankNewE (combineSubgraphs converged)))

def runSequentialE (fuel : Nat) (lines : List Url) : Option Subgraph :=
  pageRankRunE fuel (initPageRankE (readDotFile lines))

/-- A two-edge, two-domain stream: domain `x` owns `a.x -> c.x`, domain `y`
owns `b.y -> c.x`, and node `c.x.calpoly.edu` has one in-edge from each
domain. -/
def c1lines : List Url :=
  [str "a.x.calpoly.edu -> c.x.calpoly.edu", str "b.y.calpoly.edu -> c.x.calpoly.edu"]

/-- The domain keys `getDomains` discovers on `c1lines` (`""` is pre-seeded,
`"x"` and `"y"` are extracted), listed in one admissible Go map iteration
order. -/
def c1domains : List Url := [str "x", str "y", str ""]

/-- `0.001`, the equivalence tolerance of the specification, in mirror form. -/
def tolE : ℚ := Rat.divInt 1 1000

/-! ## Characterization vocabulary for the claims -/

/-- The edge a line yields, if any: split on `"->"`; exactly two parts give
`(trim left, trim (right with every ";" removed))`. -/
def parseLine (line : Url) : Option (Url × Url) :=
  match splitOnSub line arrowSep with
  | [s0, s1] => some (trimC s0, trimC (removeSub s1 (str ";")))
  | _ => none

/-- Build a partition graph from an already-selected edge list (the state
updates of `readDotFileByDomain` without its line parsing and ownership
filter). -/
def buildPartitionFromEdges (domain : Url) (edges : List (Url × Url)) : Subgraph :=
  (edges.foldl (fun st e => addParsedEdge st e.1 e.2)
    ([], { newSubgraph with domainName := domain })).2

/-- Build a whole graph from an edge list (the state updates of
`readDotFile` without its line parsing). -/
def buildFromEdges (edges : List (Url × Url)) : Subgraph :=
  (edges.foldl (fun st e => addParsedEdge st e.1 e.2) ([], newSubgraph)).2

/-- The merged value `combineSubgraphs` gives a key: the value of the first
subgraph, in processing order, that both passes `isDomain` for its own
`domainName` and has an entry for the key. -/
def firstQualifying {α : Type} : List Subgraph → (Subgraph → List (Url × α)) → Url → Option α
  | [], _, _ => none
  | g :: rest, proj, url =>
    if isDomain url g.domainName && (lookupA (proj g) url).isSome then lookupA (proj g) url
    else firstQualifying rest proj url

/-- Every value of a rank map is non-negative. -/
abbrev nonnegValues (m : List (Url × ℚ)) : Prop := ∀ p ∈ m, 0 ≤ p.2

/-- Node `n` has an `outLinks` entry (in the map-lookup sense) with value
at least 1. -/
abbrev outEntryOk (g : Subgraph) (n : Url) : Prop :=
  ∃ k, lookupA g.outLinks n = some k ∧ 1 ≤ k

/-- The out-degree invariant of the specification: every node appearing as
a value in some `incoming[m]` has an `outLinks` entry of value at least 1
(so the prestige division never divides by zero). -/
abbrev adjInvariant (g : Subgraph) : Prop :=
  ∀ m ns, lookupA g.adjacencyList m = some ns → ∀ n ∈ ns, outEntryOk g n

/-- Every `outLinks` binding has value at least 1 and a key owned by the
graph's own domain. -/
abbrev outLinksOk (g : Subgraph) : Prop :=
  ∀ n k, lookupA g.outLinks n = some k → 1 ≤ k ∧ isDomain n g.domainName = true

/-! ## Helper lemmas and claim theorems -/

theorem qadd_eq (x y : ℚ) : qadd x y = x + y := by
  conv_rhs => rw [← Rat.num_divInt_den x, ← Rat.num_divInt_den y]
  rw [Rat.divInt_add_divInt _ _ (Int.natCast_ne_zero.mpr x.den_nz)
    (Int.natCast_ne_zero.mpr y.den_nz)]
  rfl

theorem qsub_eq (x y : ℚ) : qsub x y = x - y := by
  conv_rhs => rw [← Rat.num_divInt_den x, ← Rat.num_divInt_den y]
  rw [Rat.divInt_sub_divInt _ _ (Int.natCast_ne_zero.mpr x.den_nz)
    (Int.natCast_ne_zero.mpr y.den_nz)]
  rfl

theorem qmul_eq (x y : ℚ) : qmul x y = x * y := by
  conv_rhs => rw [← Rat.num_divInt_den x, ← Rat.num_divInt_den y]
  rw [Rat.divInt_mul_divInt']
  rfl

theorem qdiv_eq (x y : ℚ) : qdiv x y = x / y := by
  rw [div_eq_mul_inv, Rat.inv_def']
  conv_rhs => rw [← Rat.num_divInt_den x]
  rw [Rat.divInt_mul_divInt']
  rfl

theorem qabs_eq (x : ℚ) : qabs x = |x| := by
  rcases le_or_lt 0 x with h | h
  · rw [abs_of_nonneg h]
    have hn : (0 : ℤ) ≤ x.num := Rat.num_nonneg.mpr h
    rw [qabs, Int.natAbs_of_nonneg hn, Rat.num_divInt_den]
  · rw [abs_of_neg h]
    have hn : x.num < 0 := Rat.num_neg.mpr h
    have : ((x.num.natAbs : ℕ) : ℤ) = -x.num := by omega
    rw [qabs, this, ← Rat.neg_divInt, Rat.num_divInt_den]

theorem qblt_iff (x y : ℚ) : qblt x y = true ↔ x < y := by
  rw [Rat.lt_def, qblt, decide_eq_true_iff]

theorem natQ_eq (n : ℕ) : natQ n = (n : ℚ) := by
  rw [natQ, Rat.divInt_one, Int.cast_natCast]

theorem dE_eq : dE = 9 / 10 := by rw [dE, Rat.divInt_eq_div]; norm_num

theorem epsE_eq : epsE = 1 / 10000 := by rw [epsE, Rat.divInt_eq_div]; norm_num

theorem sumValuesE_eq (m : List (Url × ℚ)) : sumValuesE m = sumValues m := by
  have h : (fun (acc : ℚ) (p : Url × ℚ) => qadd acc p.2) =
      (fun (acc : ℚ) (p : Url × ℚ) => acc + p.2) := by
    funext acc p; exact qadd_eq acc p.2
  rw [sumValuesE, sumValues, h]

theorem distanceE_eq (a b : List (Url × ℚ)) : distanceE a b = distance a b := by
  have h : (fun (acc : ℚ) (p : Url × ℚ) => qadd acc (qabs (qsub p.2 (lookupD b p.1 0)))) =
      (fun (acc : ℚ) (p : Url × ℚ) => acc + |p.2 - lookupD b p.1 0|) := by
    funext acc p; rw [qsub_eq, qabs_eq, qadd_eq]
  rw [distanceE, distance, h]

theorem randClickProbE_eq (g : Subgraph) : randClickProbE g = randClickProb g (9 / 10) := by
  rw [randClickProbE, randClickProb, qmul_eq, qsub_eq, qdiv_eq, natQ_eq, dE_eq]

theorem hyperLinkClickE_eq (g : Subgraph) (node : Url) :
    hyperLinkClickE g node = hyperLinkClick g node (9 / 10) := by
  rw [hyperLinkClickE, hyperLinkClick]
  have h : (fun (acc : ℚ) (inNode : Url) =>
        qadd acc (qdiv (lookupD g.pageRankOld inNode 0)
          (natQ (lookupD g.outLinks inNode 0)))) =
      (fun (acc : ℚ) (inNode : Url) =>
        acc + lookupD g.pageRankOld inNode 0 /
          ((lookupD g.outLinks inNode 0 : ℕ) : ℚ)) := by
    funext acc inNode; rw [qdiv_eq, natQ_eq, qadd_eq]
  rw [qmul_eq, dE_eq, h]

theorem normalizePageRankNewE_eq (g : Subgraph) :
    normalizePageRankNewE g = normalizePageRankNew g := by
  have h : (fun (p : Url × ℚ) => (p.1, qdiv p.2 (sumValuesE g.pageRankNew))) =
      (fun (p : Url × ℚ) => (p.1, p.2 / sumValues g.pageRankNew)) := by
    funext p; rw [sumValuesE_eq, qdiv_eq]
  rw [normalizePageRankNewE, normalizePageRankNew, h]

theorem pageRankIterE_eq (g : Subgraph) : pageRankIterE g = pageRankIter (9 / 10) g := by
  rw [pageRankIterE, pageRankIter, normalizePageRankNewE_eq]
  have h : (fun (m : List (Url × ℚ)) (url : Url) =>
        insertA m url (qadd (randClickProbE { g with pageRankOld := g.pageRankNew })
          (hyperLinkClickE { g with pageRankOld := g.pageRankNew } url))) =
      (fun (m : List (Url × ℚ)) (url : Url) =>
        insertA m url (randClickProb { g with pageRankOld := g.pageRankNew } (9 / 10) +
          hyperLinkClick { g with pageRankOld := g.pageRankNew } url (9 / 10))) := by
    funext m url
    rw [qadd_eq, randClickProbE_eq, hyperLinkClickE_eq]
  rw [h]

theorem pageRankRunE_eq (fuel : Nat) (g : Subgraph) :
    pageRankRunE fuel g = pageRankRun (9 / 10) (1 / 10000) fuel g := by
  induction fuel generalizing g with
  | zero => rfl
  | succ n ih =>
    rw [pageRankRunE, pageRankRun, pageRankIterE_eq]
    by_cases h : distance (pageRankIter (9 / 10) g).pageRankOld
        (pageRankIter (9 / 10) g).pageRankNew < 1 / 10000
    · rw [if_pos h, if_pos]
      rw [distanceE_eq, epsE_eq, qblt_iff]
      exact h
    · rw [if_neg h, if_neg, ih]
      rw [distanceE_eq, epsE_eq, qblt_iff]
      exact h

theorem initPageRankE_eq (g : Subgraph) : initPageRankE g = initPageRank g := by
  have h : (fun (m : List (Url × ℚ)) (node : Url) =>
        insertA m node (qdiv 1 (natQ g.nodes.length))) =
      (fun (m : List (Url × ℚ)) (node : Url) =>
        insertA m node ((1 : ℚ) / ((g.nodes.length : ℕ) : ℚ))) := by
    funext m node; rw [qdiv_eq, natQ_eq]
  rw [initPageRankE, initPageRank, h]

theorem localizedPageRankE_eq (fuel : Nat) (g : Subgraph) :
    localizedPageRankE fuel g = localizedPageRank fuel g := by
  rw [localizedPageRankE, localizedPageRank, initPageRankE_eq, pageRankRunE_eq]

theorem runPipelineE_eq (fuel : Nat) (lines domains : List Url) :
    runPipelineE fuel lines domains = runPipeline fuel lines domains := by
  rw [runPipelineE, runPipeline]
  have h : localizedPageRankE fuel = localizedPageRank fuel := by
    funext g; exact localizedPageRankE_eq fuel g
  rw [h]
  have h2 : (fun converged => pageRankRunE fuel (normalizePageRankNewE (combineSubgraphs converged))) =
      (fun converged => pageRankRun (9 / 10) (1 / 10000) fuel
        (normalizePageRankNew (combineSubgraphs converged))) := by
    funext converged; rw [normalizePageRankNewE_eq, pageRankRunE_eq]
  rw [h2]

theorem runSequentialE_eq (fuel : Nat) (lines : List Url) :
    runSequentialE fuel lines = runSequential fuel lines := by
  rw [runSequentialE, runSequential, initPageRankE_eq, pageRankRunE_eq]

/-! ## Concrete inputs used by the claim theorems -/

theorem tolE_eq : tolE = 1 / 1000 := by rw [tolE, Rat.divInt_eq_div]; norm_num

set_option maxRecDepth 8000 in
/-- C1.  The partition/merge/refine pipeline is NOT rank-equivalent to the
single-pass sequential computation: on `c1lines`, with the discovered
domains processed in the admissible order `c1domains`, both runs converge,
yet the refined global rank of `c.x.calpoly.edu` differs from its
sequential rank by more than the `1e-3` tolerance.  (`combineSubgraphs`
copies whole per-partition adjacency lists first-writer-wins, so the
cross-domain in-edge `b.y -> c.x` held only by partitions `"y"`/`""` is
dropped when partition `"x"` exports its `c.x` entry first.) -/
theorem c1_pipeline_rank_differs_from_sequential :
    srcDomainKeys (trimC (str "a.x.calpoly.edu ")) = [str "x"] ∧
    srcDomainKeys (trimC (str "b.y.calpoly.edu ")) = [str "y"] ∧
    (runPipeline 60 c1lines c1domains).isSome = true ∧
    (runSequential 60 c1lines).isSome = true ∧
    1 / 1000 < rankOf (runSequential 60 c1lines) (str "c.x.calpoly.edu") -
      rankOf (runPipeline 60 c1lines c1domains) (str "c.x.calpoly.edu") := by
  refine ⟨by decide, by decide, ?_, ?_, ?_⟩
  · rw [← runPipelineE_eq]
    decide
  · rw [← runSequentialE_eq]
    decide
  · rw [← tolE_eq, ← runPipelineE_eq, ← runSequentialE_eq, ← qsub_eq, ← qblt_iff]
    decide

/-! ### Reader characterization (claims C2 and C7) -/

theorem lineStepByDomain_eq_parse (domain : Url) (st : List Url × Subgraph) (line : Url) :
    lineStepByDomain domain st line =
      match parseLine line with
      | some e => if isDomain e.1 domain then addParsedEdge st e.1 e.2 else st
      | none => st := by
  simp only [lineStepByDomain, parseLine]
  rcases h : splitOnSub line arrowSep with _ | ⟨a, _ | ⟨b, _ | _⟩⟩ <;> rfl

theorem lineStep_eq_parse (st : List Url × Subgraph) (line : Url) :
    lineStep st line =
      match parseLine line with
      | some e => addParsedEdge st e.1 e.2
      | none => st := by
  simp only [lineStep, parseLine]
  rcases h : splitOnSub line arrowSep with _ | ⟨a, _ | ⟨b, _ | _⟩⟩ <;> rfl

theorem foldl_lineStepByDomain (domain : Url) (lines : List Url) :
    ∀ st : List Url × Subgraph,
      lines.foldl (lineStepByDomain domain) st =
        ((lines.filterMap parseLine).filter (fun e => isDomain e.1 domain)).foldl
          (fun st e => addParsedEdge st e.1 e.2) st := by
  induction lines with
  | nil => intro st; rfl
  | cons l rest ih =>
    intro st
    rw [List.foldl_cons, List.filterMap_cons, lineStepByDomain_eq_parse]
    cases h : parseLine l with
    | none => exact ih st
    | some e =>
      by_cases hd : isDomain e.1 domain = true
      · simp only [hd, if_true, List.filter_cons, List.foldl_cons]
        exact ih _
      · simp only [hd, if_false, List.filter_cons]
        rw [if_neg (by simp [hd])]
        exact ih st

theorem foldl_lineStep (lines : List Url) :
    ∀ st : List Url × Subgraph,
      lines.foldl lineStep st =
        (lines.filterMap parseLine).foldl (fun st e => addParsedEdge st e.1 e.2) st := by
  induction lines with
  | nil => intro st; rfl
  | cons l rest ih =>
    intro st
    rw [List.foldl_cons, List.filterMap_cons, lineStep_eq_parse]
    cases h : parseLine l with
    | none => exact ih st
    | some e => rw [List.foldl_cons]; exact ih _

theorem parseLine_isSome_iff (line : Url) :
    (parseLine line).isSome = true ↔ (splitOnSub line arrowSep).length = 2 := by
  rw [parseLine]
  rcases h : splitOnSub line arrowSep with _ | ⟨a, _ | ⟨b, _ | _⟩⟩ <;> simp

/-- C2 (corrected, amended form).  `readDotFileByDomain` is exactly the fold
of the edge-recording updates over the parsed edges whose SOURCE token
contains `domainKey ++ ".calpoly.edu"` as a substring (`isDomain`): an edge
is included iff its source passes that containment test — in particular the
destination endpoint never determines inclusion, but the test is substring
containment, not equality of the extracted domain key. -/
theorem c2_ownership_is_source_containment (lines : List Url) (domain : Url) :
    readDotFileByDomain lines domain =
      buildPartitionFromEdges domain
        ((lines.filterMap parseLine).filter (fun e => isDomain e.1 domain)) := by
  rw [readDotFileByDomain, buildPartitionFromEdges, foldl_lineStepByDomain]

/-- C2 (counterexample).  With `domainKey = ""`, the edge
`a.x.calpoly.edu -> b` is included in the partition (its source contains
`".calpoly.edu"`), although the domain key `getDomains` extracts from the
source is `"x" ≠ ""`.  So inclusion is NOT "extracted key = domainKey". -/
theorem c2_counterexample :
    lookupA (readDotFileByDomain [str "a.x.calpoly.edu -> b"] (str "")).adjacencyList
      (str "b") = some [str "a.x.calpoly.edu"] ∧
    srcDomainKeys (str "a.x.calpoly.edu") = [str "x"] ∧
    (str "x" : Url) ≠ str "" :=
  ⟨by decide, by decide, by decide⟩

/-- C7 (corrected, amended form).  A line yields an edge iff splitting it on
`"->"` yields exactly two parts (one separator occurrence); the edge is
`(trim left, trim (right with EVERY ";" removed))`, the tokens may be empty,
and non-matching lines contribute nothing: `readDotFile` is exactly the fold
of the edge-recording updates over the parsed edges. -/
theorem c7_line_shape :
    (∀ lines : List Url, readDotFile lines = buildFromEdges (lines.filterMap parseLine)) ∧
    (∀ line : Url, (parseLine line).isSome = true ↔ (splitOnSub line arrowSep).length = 2) := by
  constructor
  · intro lines
    rw [readDotFile, buildFromEdges, foldl_lineStep]
  · exact parseLine_isSome_iff

/-- C7 (counterexample).  The line `" -> x"` has an EMPTY trimmed source
token, yet it yields an edge and the empty string becomes a node; and on
`"a -> b;c;"` every `";"` is removed from the destination (giving `"bc"`),
not just a trailing one (which would give `"b;c"`). -/
theorem c7_counterexample :
    parseLine (str " -> x") = some ([], str "x") ∧
    (readDotFile [str " -> x"]).nodes = [[], str "x"] ∧
    (readDotFile [str "a -> b;c;"]).nodes = [str "a", str "bc"] :=
  ⟨by decide, by decide, by decide⟩

/-! ### Engine frame and exit lemmas (claims C10, C6, C5) -/

theorem pageRankIter_frame (d : ℚ) (g : Subgraph) :
    (pageRankIter d g).domainName = g.domainName ∧
    (pageRankIter d g).nodes = g.nodes ∧
    (pageRankIter d g).adjacencyList = g.adjacencyList ∧
    (pageRankIter d g).outLinks = g.outLinks :=
  ⟨rfl, rfl, rfl, rfl⟩

theorem pageRankRun_frame (d epsilon : ℚ) :
    ∀ (fuel : Nat) (g g2 : Subgraph), pageRankRun d epsilon fuel g = some g2 →
      g2.domainName = g.domainName ∧ g2.nodes = g.nodes ∧
      g2.adjacencyList = g.adjacencyList ∧ g2.outLinks = g.outLinks := by
  intro fuel
  induction fuel with
  | zero => intro g g2 h; exact absurd h (by simp [pageRankRun])
  | succ n ih =>
    intro g g2 h
    simp only [pageRankRun] at h
    split at h
    · obtain rfl : pageRankIter d g = g2 := Option.some.inj h
      exact pageRankIter_frame d g
    · obtain ⟨h1, h2, h3, h4⟩ := ih _ _ h
      obtain ⟨k1, k2, k3, k4⟩ := pageRankIter_frame d g
      exact ⟨h1.trans k1, h2.trans k2, h3.trans k3, h4.trans k4⟩

theorem pageRankRun_exit (d epsilon : ℚ) :
    ∀ (fuel : Nat) (g g2 : Subgraph), pageRankRun d epsilon fuel g = some g2 →
      distance g2.pageRankOld g2.pageRankNew < epsilon := by
  intro fuel
  induction fuel with
  | zero => intro g g2 h; exact absurd h (by simp [pageRankRun])
  | succ n ih =>
    intro g g2 h
    simp only [pageRankRun] at h
    split at h
    · obtain rfl : pageRankIter d g = g2 := Option.some.inj h
      assumption
    · exact ih _ _ h

/-- The convergence loop run on a graph with no nodes and empty rank maps
exits after its first iteration, with the graph unchanged. -/
theorem pageRankRun_on_empty (dn : Url) (adj : List (Url × List Url))
    (out : List (Url × Nat)) :
    pageRankRun (9 / 10) (1 / 10000) 1
        (initPageRank ⟨dn, [], adj, out, [], []⟩) =
      some ⟨dn, [], adj, out, [], []⟩ := by
  have hd : distance (pageRankIter (9 / 10) ⟨dn, [], adj, out, [], []⟩).pageRankOld
      (pageRankIter (9 / 10) ⟨dn, [], adj, out, [], []⟩).pageRankNew < 1 / 10000 := by
    show distance [] [] < 1 / 10000
    rw [distance]
    norm_num
  show pageRankRun (9 / 10) (1 / 10000) 1 ⟨dn, [], adj, out, [], []⟩ = _
  simp only [pageRankRun]
  rw [if_pos hd]
  rfl

theorem addParsedEdge_ranks (st : List Url × Subgraph) (src dest : Url) :
    (addParsedEdge st src dest).2.pageRankOld = st.2.pageRankOld ∧
    (addParsedEdge st src dest).2.pageRankNew = st.2.pageRankNew := by
  simp only [addParsedEdge]
  split <;> split <;> exact ⟨rfl, rfl⟩

theorem readDotFileByDomain_ranks (lines : List Url) (domain : Url) :
    (readDotFileByDomain lines domain).pageRankOld = [] ∧
    (readDotFileByDomain lines domain).pageRankNew = [] := by
  rw [readDotFileByDomain]
  have key : ∀ (ls : List Url) (st : List Url × Subgraph),
      (ls.foldl (lineStepByDomain domain) st).2.pageRankOld = st.2.pageRankOld ∧
      (ls.foldl (lineStepByDomain domain) st).2.pageRankNew = st.2.pageRankNew := by
    intro ls
    induction ls with
    | nil => intro st; exact ⟨rfl, rfl⟩
    | cons l rest ih =>
      intro st
      rw [List.foldl_cons, lineStepByDomain_eq_parse]
      cases h : parseLine l with
      | none => exact ih st
      | some e =>
        dsimp only
        by_cases hd : isDomain e.1 domain = true
        · rw [if_pos hd]
          obtain ⟨a1, a2⟩ := addParsedEdge_ranks st e.1 e.2
          obtain ⟨b1, b2⟩ := ih (addParsedEdge st e.1 e.2)
          exact ⟨b1.trans a1, b2.trans a2⟩
        · rw [if_neg hd]
          exact ih st
  exact key lines ([], { newSubgraph with domainName := domain })

/-- C5.  A partition with zero nodes runs the whole engine
(`initPageRank` then `pageRank`) to completion within a single loop
iteration — trivially converged, with no division ever executed — and its
rank map is empty. -/
theorem c5_empty_partition_trivially_converges (lines : List Url) (domain : Url)
    (h : (readDotFileByDomain lines domain).nodes = []) :
    pageRankRun (9 / 10) (1 / 10000) 1 (initPageRank (readDotFileByDomain lines domain)) =
      some (readDotFileByDomain lines domain) ∧
    (readDotFileByDomain lines domain).pageRankNew = [] := by
  obtain ⟨hOld, hNew⟩ := readDotFileByDomain_ranks lines domain
  rcases hg : readDotFileByDomain lines domain with ⟨dn, ns, adj, out, old, new⟩
  rw [hg] at h hOld hNew
  simp only at h hOld hNew
  subst h; subst hOld; subst hNew
  exact ⟨pageRankRun_on_empty dn adj out, rfl⟩

/-- C5 (witness): the concrete no-edge stream gives an empty partition, and
the engine returns it unchanged, converged, with an empty rank map. -/
theorem c5_witness :
    pageRankRun (9 / 10) (1 / 10000) 1
        (initPageRank (readDotFileByDomain [str "garbage line with no arrow"] (str "q"))) =
      some (readDotFileByDomain [str "garbage line with no arrow"] (str "q")) ∧
    (readDotFileByDomain [str "garbage line with no arrow"] (str "q")).pageRankNew = [] :=
  c5_empty_partition_trivially_converges _ _ (by decide)

/-- C6.  The `pageRank` loop of the code has NO iteration cap and NO
non-convergence signal: for every damping factor, threshold, fuel and
input, the only way the loop terminates is that the L1 distance of the
final state is below epsilon — on an input whose distances never drop below
epsilon it loops forever, contradicting the capped behaviour the
specification requires. -/
theorem c6_only_exit_is_convergence (d epsilon : ℚ) (fuel : Nat) (g g2 : Subgraph)
    (h : pageRankRun d epsilon fuel g = some g2) :
    distance g2.pageRankOld g2.pageRankNew < epsilon :=
  pageRankRun_exit d epsilon fuel g g2 h

/-- C6 (witness): a concrete exiting run, whose final state is below the
threshold. -/
theorem c6_witness :
    distance (readDotFileByDomain [] (str "w")).pageRankOld
      (readDotFileByDomain [] (str "w")).pageRankNew < 1 / 10000 := by
  have h : pageRankRun (9 / 10) (1 / 10000) 1
      (initPageRank (readDotFileByDomain [] (str "w"))) =
      some (readDotFileByDomain [] (str "w")) := by
    rw [← pageRankRunE_eq, ← initPageRankE_eq]
    decide
  exact c6_only_exit_is_convergence (9 / 10) (1 / 10000) 1 _ _ h

/-- C10.  The engine (`pageRank` and `localizedPageRank`) mutates only the
two rank maps: `domainName`, `nodes`, `adjacencyList` and `outLinks` are
unchanged by the entire convergence loop. -/
theorem c10_engine_mutates_only_rank_maps :
    (∀ (d epsilon : ℚ) (fuel : Nat) (g g2 : Subgraph),
        pageRankRun d epsilon fuel g = some g2 →
        g2.domainName = g.domainName ∧ g2.nodes = g.nodes ∧
        g2.adjacencyList = g.adjacencyList ∧ g2.outLinks = g.outLinks) ∧
    (∀ (fuel : Nat) (g g2 : Subgraph), localizedPageRank fuel g = some g2 →
        g2.domainName = g.domainName ∧ g2.nodes = g.nodes ∧
        g2.adjacencyList = g.adjacencyList ∧ g2.outLinks = g.outLinks) := by
  refine ⟨fun d epsilon fuel g g2 h => pageRankRun_frame d epsilon fuel g g2 h, ?_⟩
  intro fuel g g2 h
  rw [localizedPageRank] at h
  exact pageRankRun_frame (9 / 10) (1 / 10000) fuel (initPageRank g) g2 h

/-- C10 (witness): a concrete two-node run; the engine converges and the
node list (and the other three non-rank fields) are untouched. -/
theorem c10_witness :
    (localizedPageRank 1 (readDotFileByDomain
        [str "a.k.calpoly.edu -> b.k.calpoly.edu", str "b.k.calpoly.edu -> a.k.calpoly.edu"]
        (str "k"))).isSome = true ∧
    ((localizedPageRank 1 (readDotFileByDomain
        [str "a.k.calpoly.edu -> b.k.calpoly.edu", str "b.k.calpoly.edu -> a.k.calpoly.edu"]
        (str "k"))).getD newSubgraph).nodes =
      (readDotFileByDomain
        [str "a.k.calpoly.edu -> b.k.calpoly.edu", str "b.k.calpoly.edu -> a.k.calpoly.edu"]
        (str "k")).nodes := by
  have h : localizedPageRank 1 (readDotFileByDomain
      [str "a.k.calpoly.edu -> b.k.calpoly.edu", str "b.k.calpoly.edu -> a.k.calpoly.edu"]
      (str "k")) =
      some ((localizedPageRankE 1 (readDotFileByDomain
        [str "a.k.calpoly.edu -> b.k.calpoly.edu", str "b.k.calpoly.edu -> a.k.calpoly.edu"]
        (str "k"))).getD newSubgraph) := by
    rw [← localizedPageRankE_eq]
    decide
  constructor
  · rw [h]; rfl
  · have h4 := c10_engine_mutates_only_rank_maps.2 1 _ _ h
    rw [h]
    exact h4.2.1

/-! ### Association-list lemmas -/

theorem lookupA_insertA {α : Type} (m : List (Url × α)) (k : Url) (v : α) (x : Url) :
    lookupA (insertA m k v) x = if k = x then some v else lookupA m x := by
  induction m with
  | nil => rfl
  | cons p rest ih =>
    obtain ⟨k1, v1⟩ := p
    rw [insertA]
    by_cases h1 : k1 = k
    · subst h1
      rw [if_pos rfl, lookupA, lookupA]
      by_cases h2 : k1 = x
      · simp only [if_pos h2]
      · simp only [if_neg h2]
    · rw [if_neg h1, lookupA, lookupA, ih]
      by_cases h2 : k1 = x
      · subst h2
        rw [if_pos rfl, if_pos rfl, if_neg (fun hkx => h1 hkx.symm)]
      · rw [if_neg h2, if_neg h2]

theorem mem_insertA {α : Type} {p : Url × α} :
    ∀ {m : List (Url × α)} {k : Url} {v : α}, p ∈ insertA m k v → p = (k, v) ∨ p ∈ m := by
  intro m
  induction m with
  | nil => intro k v h; rw [insertA] at h; simpa using h
  | cons q rest ih =>
    intro k v h
    obtain ⟨k1, v1⟩ := q
    rw [insertA] at h
    by_cases h1 : k1 = k
    · rw [if_pos h1] at h
      rcases List.mem_cons.mp h with h2 | h2
      · exact Or.inl h2
      · exact Or.inr (List.mem_cons_of_mem _ h2)
    · rw [if_neg h1] at h
      rcases List.mem_cons.mp h with h2 | h2
      · exact Or.inr (h2 ▸ List.mem_cons_self _ _)
      · rcases ih h2 with h3 | h3
        · exact Or.inl h3
        · exact Or.inr (List.mem_cons_of_mem _ h3)

theorem self_mem_insertA {α : Type} : ∀ (m : List (Url × α)) (k : Url) (v : α),
    (k, v) ∈ insertA m k v := by
  intro m
  induction m with
  | nil => intro k v; rw [insertA]; exact List.mem_singleton.mpr rfl
  | cons q rest ih =>
    intro k v
    obtain ⟨k1, v1⟩ := q
    rw [insertA]
    by_cases h1 : k1 = k
    · rw [if_pos h1]; exact List.mem_cons_self _ _
    · rw [if_neg h1]; exact List.mem_cons_of_mem _ (ih k v)

theorem mem_insertA_of_ne {α : Type} {p : Url × α} :
    ∀ {m : List (Url × α)} (k : Url) (v : α), p ∈ m → p.1 ≠ k → p ∈ insertA m k v := by
  intro m
  induction m with
  | nil => intro k v h _; exact absurd h (List.not_mem_nil p)
  | cons q rest ih =>
    intro k v h hne
    obtain ⟨k1, v1⟩ := q
    rw [insertA]
    by_cases h1 : k1 = k
    · rw [if_pos h1]
      rcases List.mem_cons.mp h with h2 | h2
      · exact absurd (by rw [h2, h1]) hne
      · exact List.mem_cons_of_mem _ h2
    · rw [if_neg h1]
      rcases List.mem_cons.mp h with h2 | h2
      · exact h2 ▸ List.mem_cons_self _ _
      · exact List.mem_cons_of_mem _ (ih k v h2 hne)

theorem lookupA_mem {α : Type} : ∀ {m : List (Url × α)} {x : Url} {v : α},
    lookupA m x = some v → (x, v) ∈ m := by
  intro m
  induction m with
  | nil => intro x v h; exact absurd h (by rw [lookupA]; simp)
  | cons q rest ih =>
    intro x v h
    obtain ⟨k1, v1⟩ := q
    rw [lookupA] at h
    by_cases h1 : k1 = x
    · rw [if_pos h1] at h
      subst h1
      obtain rfl := Option.some.inj h
      exact List.mem_cons_self _ _
    · rw [if_neg h1] at h
      exact List.mem_cons_of_mem _ (ih h)

theorem lookupA_isSome_of_mem {α : Type} : ∀ {m : List (Url × α)} {x : Url} {v : α},
    (x, v) ∈ m → (lookupA m x).isSome = true := by
  intro m
  induction m with
  | nil => intro x v h; exact absurd h (List.not_mem_nil _)
  | cons q rest ih =>
    intro x v h
    obtain ⟨k1, v1⟩ := q
    rw [lookupA]
    by_cases h1 : k1 = x
    · rw [if_pos h1]; rfl
    · rw [if_neg h1]
      rcases List.mem_cons.mp h with h2 | h2
      · exact absurd (congrArg Prod.fst h2).symm h1
      · exact ih h2

/-! ### Rank-sum lemmas (claim C4) -/

theorem foldl_add_shift (l : List (Url × ℚ)) :
    ∀ a : ℚ, l.foldl (fun acc p => acc + p.2) a = a + sumValues l := by
  induction l with
  | nil => intro a; rw [sumValues]; simp
  | cons p rest ih =>
    intro a
    rw [List.foldl_cons, ih]
    conv_rhs => rw [sumValues, List.foldl_cons, ih, zero_add]
    ring

theorem sumValues_cons (p : Url × ℚ) (l : List (Url × ℚ)) :
    sumValues (p :: l) = p.2 + sumValues l := by
  rw [sumValues, List.foldl_cons, foldl_add_shift, zero_add]

theorem sumValues_map_div (l : List (Url × ℚ)) (S : ℚ) :
    sumValues (l.map (fun p => (p.1, p.2 / S))) = sumValues l / S := by
  induction l with
  | nil => rw [List.map_nil]; show (0 : ℚ) = 0 / S; rw [zero_div]
  | cons p rest ih => rw [List.map_cons, sumValues_cons, sumValues_cons, ih, add_div]

theorem sumValues_nonneg : ∀ {l : List (Url × ℚ)}, nonnegValues l → 0 ≤ sumValues l := by
  intro l
  induction l with
  | nil => intro _; exact le_refl 0
  | cons p rest ih =>
    intro h
    rw [sumValues_cons]
    exact add_nonneg (h p (List.mem_cons_self _ _))
      (ih (fun q hq => h q (List.mem_cons_of_mem _ hq)))

theorem le_sumValues_of_mem : ∀ {l : List (Url × ℚ)} {x : Url} {v : ℚ},
    (x, v) ∈ l → nonnegValues l → v ≤ sumValues l := by
  intro l
  induction l with
  | nil => intro x v h _; exact absurd h (List.not_mem_nil _)
  | cons p rest ih =>
    intro x v h hnn
    rw [sumValues_cons]
    rcases List.mem_cons.mp h with h2 | h2
    · rw [← h2]
      exact le_add_of_nonneg_right (sumValues_nonneg (fun q hq => hnn q (List.mem_cons_of_mem _ hq)))
    · exact le_add_of_nonneg_left (hnn p (List.mem_cons_self _ _)) |>.trans'
        (ih h2 (fun q hq => hnn q (List.mem_cons_of_mem _ hq)))

theorem lookupA_foldl_insertA_of_not_mem (f : Url → ℚ) :
    ∀ (ns : List Url) (m : List (Url × ℚ)) (x : Url), x ∉ ns →
      lookupA (ns.foldl (fun m u => insertA m u (f u)) m) x = lookupA m x := by
  intro ns
  induction ns with
  | nil => intro m x _; rfl
  | cons u rest ih =>
    intro m x hx
    rw [List.foldl_cons, ih _ x (fun hr => hx (List.mem_cons_of_mem _ hr)), lookupA_insertA,
      if_neg (fun h => hx (by rw [← h]; exact List.mem_cons_self _ _))]

theorem exists_lookupA_foldl_insertA (f : Url → ℚ) (c : ℚ) (hf : ∀ u, c ≤ f u) :
    ∀ (ns : List Url) (m : List (Url × ℚ)) (x : Url), x ∈ ns →
      ∃ v, lookupA (ns.foldl (fun m u => insertA m u (f u)) m) x = some v ∧ c ≤ v := by
  intro ns
  induction ns with
  | nil => intro m x h; exact absurd h (List.not_mem_nil _)
  | cons u rest ih =>
    intro m x hx
    rw [List.foldl_cons]
    by_cases hr : x ∈ rest
    · exact ih _ x hr
    · have hxu : x = u := by
        rcases List.mem_cons.mp hx with h | h
        · exact h
        · exact absurd h hr
      subst hxu
      rw [lookupA_foldl_insertA_of_not_mem f rest _ x hr, lookupA_insertA, if_pos rfl]
      exact ⟨f x, rfl, hf x⟩

theorem nonneg_foldl_insertA (f : Url → ℚ) (hf : ∀ u, 0 ≤ f u) :
    ∀ (ns : List Url) (m : List (Url × ℚ)), nonnegValues m →
      nonnegValues (ns.foldl (fun m u => insertA m u (f u)) m) := by
  intro ns
  induction ns with
  | nil => intro m hm; exact hm
  | cons u rest ih =>
    intro m hm
    rw [List.foldl_cons]
    refine ih _ (fun p hp => ?_)
    rcases mem_insertA hp with h2 | h2
    · rw [h2]; exact hf u
    · exact hm p h2

theorem lookupD_nonneg {m : List (Url × ℚ)} (h : nonnegValues m) (x : Url) :
    0 ≤ lookupD m x 0 := by
  rw [lookupD]
  cases hl : lookupA m x with
  | none => exact le_refl 0
  | some v => exact h _ (lookupA_mem hl)

theorem hyperLinkClick_nonneg (g : Subgraph) (u : Url) (h : nonnegValues g.pageRankOld) :
    0 ≤ hyperLinkClick g u (9 / 10) := by
  rw [hyperLinkClick]
  have hfold : ∀ (l : List Url) (a : ℚ), 0 ≤ a →
      0 ≤ l.foldl (fun acc inNode =>
        acc + lookupD g.pageRankOld inNode 0 /
          ((lookupD g.outLinks inNode 0 : ℕ) : ℚ)) a := by
    intro l
    induction l with
    | nil => intro a ha; exact ha
    | cons w rest ih =>
      intro a ha
      rw [List.foldl_cons]
      exact ih _ (add_nonneg ha (div_nonneg (lookupD_nonneg h w) (Nat.cast_nonneg _)))
  cases hl : lookupA g.adjacencyList u with
  | none => simp
  | some ins =>
    refine mul_nonneg (by norm_num) ?_
    exact hfold ins 0 (le_refl 0)

theorem randClickProb_pos (g : Subgraph) (h : g.nodes ≠ []) :
    0 < randClickProb g (9 / 10) := by
  rw [randClickProb]
  have hlen : (0 : ℚ) < ((g.nodes.length : ℕ) : ℚ) := by
    have : 0 < g.nodes.length := List.length_pos.mpr h
    exact_mod_cast this
  have h1 : (0 : ℚ) < 1 - 9 / 10 := by norm_num
  exact mul_pos h1 (by rw [one_div]; exact inv_pos.mpr hlen)

theorem pageRankIter_sum_one (g : Subgraph) (hne : g.nodes ≠ [])
    (hnew : nonnegValues g.pageRankNew) :
    sumValues (pageRankIter (9 / 10) g).pageRankNew = 1 ∧
    nonnegValues (pageRankIter (9 / 10) g).pageRankNew := by
  have hOldNN : nonnegValues ({ g with pageRankOld := g.pageRankNew }).pageRankOld := hnew
  have hfc : ∀ u : Url, randClickProb { g with pageRankOld := g.pageRankNew } (9 / 10) ≤
      randClickProb { g with pageRankOld := g.pageRankNew } (9 / 10) +
        hyperLinkClick { g with pageRankOld := g.pageRankNew } u (9 / 10) :=
    fun u => le_add_of_nonneg_right (hyperLinkClick_nonneg _ u hOldNN)
  have hrcp : 0 < randClickProb { g with pageRankOld := g.pageRankNew } (9 / 10) :=
    randClickProb_pos _ hne
  have hf0 : ∀ u : Url, 0 ≤ randClickProb { g with pageRankOld := g.pageRankNew } (9 / 10) +
      hyperLinkClick { g with pageRankOld := g.pageRankNew } u (9 / 10) :=
    fun u => le_trans (le_of_lt hrcp) (hfc u)
  obtain ⟨n0, hn0⟩ := List.exists_mem_of_ne_nil g.nodes hne
  have hNRnn : nonnegValues (g.nodes.foldl
      (fun m url => insertA m url
        (randClickProb { g with pageRankOld := g.pageRankNew } (9 / 10) +
          hyperLinkClick { g with pageRankOld := g.pageRankNew } url (9 / 10)))
      g.pageRankNew) :=
    nonneg_foldl_insertA _ hf0 g.nodes g.pageRankNew hnew
  obtain ⟨v, hv, hvc⟩ := exists_lookupA_foldl_insertA _ _ hfc g.nodes g.pageRankNew n0 hn0
  have hvS := le_sumValues_of_mem (lookupA_mem hv) hNRnn
  have hS : 0 < sumValues (g.nodes.foldl
      (fun m url => insertA m url
        (randClickProb { g with pageRankOld := g.pageRankNew } (9 / 10) +
          hyperLinkClick { g with pageRankOld := g.pageRankNew } url (9 / 10)))
      g.pageRankNew) :=
    lt_of_lt_of_le hrcp (le_trans hvc hvS)
  constructor
  · show sumValues ((g.nodes.foldl
        (fun m url => insertA m url
          (randClickProb { g with pageRankOld := g.pageRankNew } (9 / 10) +
            hyperLinkClick { g with pageRankOld := g.pageRankNew } url (9 / 10)))
        g.pageRankNew).map (fun p => (p.1, p.2 / _))) = 1
    rw [sumValues_map_div]
    exact div_self (ne_of_gt hS)
  · show nonnegValues ((g.nodes.foldl
        (fun m url => insertA m url
          (randClickProb { g with pageRankOld := g.pageRankNew } (9 / 10) +
            hyperLinkClick { g with pageRankOld := g.pageRankNew } url (9 / 10)))
        g.pageRankNew).map (fun p => (p.1, p.2 / _)))
    intro p hp
    obtain ⟨q, hq, rfl⟩ := List.mem_map.mp hp
    exact div_nonneg (hNRnn q hq) (le_of_lt hS)

theorem pageRankRun_sum_one :
    ∀ (fuel : Nat) (g g2 : Subgraph), g.nodes ≠ [] → nonnegValues g.pageRankNew →
      pageRankRun (9 / 10) (1 / 10000) fuel g = some g2 → sumValues g2.pageRankNew = 1 := by
  intro fuel
  induction fuel with
  | zero => intro g g2 _ _ h; exact absurd h (by simp [pageRankRun])
  | succ n ih =>
    intro g g2 hne hnn h
    simp only [pageRankRun] at h
    split at h
    · obtain rfl := Option.some.inj h
      exact (pageRankIter_sum_one g hne hnn).1
    · have hne2 : (pageRankIter (9 / 10) g).nodes ≠ [] := by
        rw [(pageRankIter_frame (9 / 10) g).2.1]; exact hne
      exact ih _ _ hne2 (pageRankIter_sum_one g hne hnn).2 h

/-- C4 (corrected, amended form).  For a graph with at least one node,
non-negative current ranks, and the out-degree invariant (on which graphs
the exact model agrees with the float program: no division by zero is
reachable), the rank sum equals 1 exactly after every normalization step
(i.e. after every loop iteration) and hence at convergence. -/
theorem c4_rank_sum_is_one (g : Subgraph) (hne : g.nodes ≠ [])
    (hnn : nonnegValues g.pageRankNew) (_hinv : adjInvariant g) :
    sumValues (pageRankIter (9 / 10) g).pageRankNew = 1 ∧
    (∀ (fuel : Nat) (g2 : Subgraph),
      pageRankRun (9 / 10) (1 / 10000) fuel g = some g2 → sumValues g2.pageRankNew = 1) :=
  ⟨(pageRankIter_sum_one g hne hnn).1,
   fun fuel g2 h => pageRankRun_sum_one fuel g g2 hne hnn h⟩

/-- C4 (counterexample).  A graph with an EMPTY node list runs to
convergence (trivially, in one iteration), but its converged rank sum is 0,
not 1 — it is not within `1e-4` of 1.  The claim's "including a Graph with
an empty node list" is therefore false on the code. -/
theorem c4_counterexample :
    pageRankRun (9 / 10) (1 / 10000) 1 (initPageRank (readDotFileByDomain [] (str "e"))) =
      some (readDotFileByDomain [] (str "e")) ∧
    sumValues (readDotFileByDomain [] (str "e")).pageRankNew = 0 ∧
    ¬ (|sumValues (readDotFileByDomain [] (str "e")).pageRankNew - 1| ≤ 1 / 10000) := by
  refine ⟨pageRankRun_on_empty (str "e") [] [], rfl, ?_⟩
  show ¬ (|(0 : ℚ) - 1| ≤ 1 / 10000)
  norm_num

/-- C4 (witness): a concrete one-node graph with nonnegative ranks; one
iteration normalizes its rank sum to exactly 1. -/
theorem c4_witness :
    (Subgraph.mk (str "k") [str "u"] [] [] [] [(str "u", 1)]).nodes ≠ [] ∧
    sumValues (pageRankIter (9 / 10)
      (Subgraph.mk (str "k") [str "u"] [] [] [] [(str "u", 1)])).pageRankNew = 1 := by
  refine ⟨by decide, ?_⟩
  refine (c4_rank_sum_is_one _ (by decide) ?_ ?_).1
  · intro p hp
    rcases List.mem_singleton.mp hp with rfl
    norm_num
  · intro m ns h
    simp [lookupA] at h

/-! ### Merge characterization (claims C8 and C3) -/

theorem contains_iff_mem (l : List Url) (x : Url) : l.contains x = true ↔ x ∈ l :=
  List.elem_iff

theorem mergeStep_preserves_inv {α : Type} (dom : Url) (st : List Url × List (Url × α))
    (e : Url × α) (hinv : ∀ y, st.1.contains y = true ↔ (lookupA st.2 y).isSome = true) :
    ∀ y, (mergeStep dom st e).1.contains y = true ↔
      (lookupA (mergeStep dom st e).2 y).isSome = true := by
  intro y
  rw [mergeStep]
  by_cases hc : (isDomain e.1 dom && !(st.1.contains e.1)) = true
  · rw [if_pos hc]
    show ((e.1 :: st.1).contains y = true) ↔ ((lookupA (insertA st.2 e.1 e.2) y).isSome = true)
    rw [List.contains_cons, lookupA_insertA]
    by_cases hy : e.1 = y
    · subst hy
      simp
    · have hby : (y == e.1) = false := by
        rw [beq_eq_false_iff_ne]
        exact fun h => hy h.symm
      rw [hby, Bool.false_or, if_neg hy]
      exact hinv y
  · rw [if_neg hc]
    exact hinv y

theorem fold_mergeStep_inv {α : Type} (dom : Url) :
    ∀ (es : List (Url × α)) (st : List Url × List (Url × α)),
      (∀ y, st.1.contains y = true ↔ (lookupA st.2 y).isSome = true) →
      ∀ y, (es.foldl (mergeStep dom) st).1.contains y = true ↔
        (lookupA (es.foldl (mergeStep dom) st).2 y).isSome = true := by
  intro es
  induction es with
  | nil => intro st hinv; exact hinv
  | cons e rest ih =>
    intro st hinv
    rw [List.foldl_cons]
    exact ih _ (mergeStep_preserves_inv dom st e hinv)

theorem fold_mergeStep_lookup {α : Type} (dom : Url) :
    ∀ (es : List (Url × α)) (st : List Url × List (Url × α)),
      (∀ y, st.1.contains y = true ↔ (lookupA st.2 y).isSome = true) →
      ∀ x, lookupA (es.foldl (mergeStep dom) st).2 x =
        if (lookupA st.2 x).isSome = true then lookupA st.2 x
        else if isDomain x dom = true then lookupA es x else none := by
  intro es
  induction es with
  | nil =>
    intro st hinv x
    rw [List.foldl_nil]
    by_cases h : (lookupA st.2 x).isSome = true
    · rw [if_pos h]
    · rw [if_neg h, Option.not_isSome_iff_eq_none.mp h]
      by_cases hd : isDomain x dom = true
      · rw [if_pos hd]; rfl
      · rw [if_neg hd]
  | cons e rest ih =>
    intro st hinv x
    rw [List.foldl_cons,
      ih (mergeStep dom st e) (mergeStep_preserves_inv dom st e hinv) x]
    rw [mergeStep]
    by_cases hc : (isDomain e.1 dom && !(st.1.contains e.1)) = true
    · rw [if_pos hc]
      have hc2 := hc
      simp only [Bool.and_eq_true, Bool.not_eq_true'] at hc2
      obtain ⟨hd1, hv1⟩ := hc2
      have hnotsome : (lookupA st.2 e.1).isSome = false := by
        cases hq : (lookupA st.2 e.1).isSome
        · rfl
        · have := (hinv e.1).mpr hq
          rw [hv1] at this
          exact absurd this (by simp)
      show (if (lookupA (insertA st.2 e.1 e.2) x).isSome = true
          then lookupA (insertA st.2 e.1 e.2) x
          else if isDomain x dom = true then lookupA rest x else none) = _
      rw [lookupA_insertA]
      by_cases hx : e.1 = x
      · subst hx
        simp [hnotsome, hd1, lookupA]
      · rw [if_neg hx]
        by_cases hsome : (lookupA st.2 x).isSome = true
        · rw [if_pos hsome, if_pos hsome]
        · rw [if_neg hsome, if_neg hsome]
          by_cases hd : isDomain x dom = true
          · rw [if_pos hd, if_pos hd, lookupA, if_neg hx]
          · rw [if_neg hd, if_neg hd]
    · rw [if_neg hc]
      by_cases hsome : (lookupA st.2 x).isSome = true
      · rw [if_pos hsome, if_pos hsome]
      · rw [if_neg hsome, if_neg hsome]
        by_cases hd : isDomain x dom = true
        · rw [if_pos hd, if_pos hd]
          by_cases hx : e.1 = x
          · subst hx
            exfalso
            have hcontains : st.1.contains e.1 = true := by
              cases hq : st.1.contains e.1
              · exfalso
                apply hc
                rw [Bool.and_eq_true]
                refine ⟨hd, ?_⟩
                rw [hq]
                rfl
              · rfl
            exact hsome ((hinv e.1).mp hcontains)
          · rw [lookupA, if_neg hx]
        · rw [if_neg hd, if_neg hd]

theorem fold_merge_lookup {α : Type} (proj : Subgraph → List (Url × α)) :
    ∀ (gs : List Subgraph) (st : List Url × List (Url × α)),
      (∀ y, st.1.contains y = true ↔ (lookupA st.2 y).isSome = true) →
      ∀ x, lookupA ((gs.foldl (fun st g => (proj g).foldl (mergeStep g.domainName) st) st)).2 x =
        if (lookupA st.2 x).isSome = true then lookupA st.2 x
        else firstQualifying gs proj x := by
  intro gs
  induction gs with
  | nil =>
    intro st hinv x
    rw [List.foldl_nil]
    by_cases h : (lookupA st.2 x).isSome = true
    · rw [if_pos h]
    · rw [if_neg h, firstQualifying, Option.not_isSome_iff_eq_none.mp h]
  | cons g rest ih =>
    intro st hinv x
    rw [List.foldl_cons,
      ih _ (fold_mergeStep_inv g.domainName (proj g) st hinv) x,
      fold_mergeStep_lookup g.domainName (proj g) st hinv x,
      firstQualifying]
    by_cases hsome : (lookupA st.2 x).isSome = true
    · rw [if_pos hsome, if_pos hsome, if_pos hsome]
    · rw [if_neg hsome, if_neg hsome]
      by_cases hd : isDomain x g.domainName = true
      · rw [if_pos hd]
        by_cases hp : (lookupA (proj g) x).isSome = true
        · rw [if_pos hp, if_pos (by rw [hd, hp]; rfl)]
        · have hpe : lookupA (proj g) x = none := Option.not_isSome_iff_eq_none.mp hp
          rw [hpe]
          simp
      · have hdf : isDomain x g.domainName = false := by
          cases hq : isDomain x g.domainName
          · rfl
          · exact absurd hq hd
        rw [hdf]
        simp

theorem mergeMaps_lookup {α : Type} (gs : List Subgraph)
    (proj : Subgraph → List (Url × α)) (x : Url) :
    lookupA (mergeMaps gs proj) x = firstQualifying gs proj x := by
  rw [mergeMaps]
  rw [fold_merge_lookup proj gs ([], []) (fun y => by simp [lookupA]) x]
  rw [if_neg (by simp [lookupA])]

theorem mergeNodesStep_preserves_inv (dom : Url) (st : List Url × List Url) (u : Url)
    (hinv : ∀ y, st.1.contains y = true ↔ y ∈ st.2) :
    ∀ y, (mergeNodesStep dom st u).1.contains y = true ↔ y ∈ (mergeNodesStep dom st u).2 := by
  intro y
  rw [mergeNodesStep]
  by_cases hc : (isDomain u dom && !(st.1.contains u)) = true
  · rw [if_pos hc]
    show ((u :: st.1).contains y = true) ↔ y ∈ st.2 ++ [u]
    rw [List.contains_cons, List.mem_append, List.mem_singleton]
    by_cases hy : y = u
    · subst hy; simp
    · have hby : (y == u) = false := by
        rw [beq_eq_false_iff_ne]; exact hy
      rw [hby, Bool.false_or]
      constructor
      · intro h; exact Or.inl ((hinv y).mp h)
      · intro h
        rcases h with h | h
        · exact (hinv y).mpr h
        · exact absurd h hy
  · rw [if_neg hc]
    exact hinv y

theorem fold_mergeNodesStep_mem (dom : Url) :
    ∀ (ns : List Url) (st : List Url × List Url),
      (∀ y, st.1.contains y = true ↔ y ∈ st.2) →
      (∀ x, x ∈ (ns.foldl (mergeNodesStep dom) st).2 ↔
        x ∈ st.2 ∨ (isDomain x dom = true ∧ x ∈ ns)) ∧
      (∀ y, (ns.foldl (mergeNodesStep dom) st).1.contains y = true ↔
        y ∈ (ns.foldl (mergeNodesStep dom) st).2) := by
  intro ns
  induction ns with
  | nil =>
    intro st hinv
    rw [List.foldl_nil]
    exact ⟨fun x => by simp, hinv⟩
  | cons u rest ih =>
    intro st hinv
    rw [List.foldl_cons]
    obtain ⟨ihm, ihinv⟩ := ih (mergeNodesStep dom st u) (mergeNodesStep_preserves_inv dom st u hinv)
    refine ⟨fun x => ?_, ihinv⟩
    rw [ihm x, mergeNodesStep]
    by_cases hc : (isDomain u dom && !(st.1.contains u)) = true
    · rw [if_pos hc]
      have hc2 := hc
      simp only [Bool.and_eq_true, Bool.not_eq_true'] at hc2
      obtain ⟨hdu, hvu⟩ := hc2
      show x ∈ st.2 ++ [u] ∨ _ ↔ _
      rw [List.mem_append, List.mem_singleton, List.mem_cons]
      constructor
      · rintro ((h | rfl) | ⟨h1, h2⟩)
        · exact Or.inl h
        · exact Or.inr ⟨hdu, Or.inl rfl⟩
        · exact Or.inr ⟨h1, Or.inr h2⟩
      · rintro (h | ⟨h1, rfl | h2⟩)
        · exact Or.inl (Or.inl h)
        · exact Or.inl (Or.inr rfl)
        · exact Or.inr ⟨h1, h2⟩
    · rw [if_neg hc, List.mem_cons]
      constructor
      · rintro (h | ⟨h1, h2⟩)
        · exact Or.inl h
        · exact Or.inr ⟨h1, Or.inr h2⟩
      · rintro (h | ⟨h1, rfl | h2⟩)
        · exact Or.inl h
        · left
          have hcont : st.1.contains x = true := by
            cases hq : st.1.contains x
            · exfalso
              apply hc
              rw [Bool.and_eq_true]
              refine ⟨h1, ?_⟩
              rw [hq]
              rfl
            · rfl
          exact (hinv x).mp hcont
        · exact Or.inr ⟨h1, h2⟩

theorem mergeNodes_mem (gs : List Subgraph) (x : Url) :
    x ∈ mergeNodes gs ↔ ∃ g ∈ gs, isDomain x g.domainName = true ∧ x ∈ g.nodes := by
  rw [mergeNodes]
  have key : ∀ (gs2 : List Subgraph) (st : List Url × List Url),
      (∀ y, st.1.contains y = true ↔ y ∈ st.2) →
      (∀ z, z ∈ (gs2.foldl (fun st g => g.nodes.foldl (mergeNodesStep g.domainName) st) st).2 ↔
        z ∈ st.2 ∨ ∃ g ∈ gs2, isDomain z g.domainName = true ∧ z ∈ g.nodes) ∧
      (∀ y, (gs2.foldl (fun st g => g.nodes.foldl (mergeNodesStep g.domainName) st) st).1.contains y
          = true ↔
        y ∈ (gs2.foldl (fun st g => g.nodes.foldl (mergeNodesStep g.domainName) st) st).2) := by
    intro gs2
    induction gs2 with
    | nil =>
      intro st hinv
      rw [List.foldl_nil]
      exact ⟨fun z => by simp, hinv⟩
    | cons g rest ih =>
      intro st hinv
      rw [List.foldl_cons]
      obtain ⟨innm, inninv⟩ := fold_mergeNodesStep_mem g.domainName g.nodes st hinv
      obtain ⟨ihm, ihinv⟩ := ih _ inninv
      refine ⟨fun z => ?_, ihinv⟩
      rw [ihm z, innm z]
      constructor
      · rintro ((h | ⟨h1, h2⟩) | ⟨g2, hg2, h3⟩)
        · exact Or.inl h
        · exact Or.inr ⟨g, List.mem_cons_self _ _, h1, h2⟩
        · exact Or.inr ⟨g2, List.mem_cons_of_mem _ hg2, h3⟩
      · rintro (h | ⟨g2, hg2, h3⟩)
        · exact Or.inl (Or.inl h)
        · rcases List.mem_cons.mp hg2 with rfl | hm
          · exact Or.inl (Or.inr h3)
          · exact Or.inr ⟨g2, hm, h3⟩
  rw [(key gs ([], []) (fun y => by simp)).1 x]
  simp

theorem firstQualifying_some {α : Type} :
    ∀ (gs : List Subgraph) (proj : Subgraph → List (Url × α)) (x : Url) (v : α),
      firstQualifying gs proj x = some v →
      ∃ g ∈ gs, isDomain x g.domainName = true ∧ lookupA (proj g) x = some v := by
  intro gs
  induction gs with
  | nil => intro proj x v h; exact absurd h (by rw [firstQualifying]; simp)
  | cons g rest ih =>
    intro proj x v h
    rw [firstQualifying] at h
    by_cases hc : (isDomain x g.domainName && (lookupA (proj g) x).isSome) = true
    · rw [if_pos hc] at h
      have hc2 := hc
      simp only [Bool.and_eq_true] at hc2
      exact ⟨g, List.mem_cons_self _ _, hc2.1, h⟩
    · rw [if_neg hc] at h
      obtain ⟨g2, hg2, hd2, hl2⟩ := ih proj x v h
      exact ⟨g2, List.mem_cons_of_mem _ hg2, hd2, hl2⟩

theorem firstQualifying_isSome_of_exists {α : Type} :
    ∀ (gs : List Subgraph) (proj : Subgraph → List (Url × α)) (x : Url),
      (∃ g ∈ gs, isDomain x g.domainName = true ∧ (lookupA (proj g) x).isSome = true) →
      (firstQualifying gs proj x).isSome = true := by
  intro gs
  induction gs with
  | nil =>
    intro proj x h
    obtain ⟨g, hg, -⟩ := h
    exact absurd hg (List.not_mem_nil g)
  | cons g rest ih =>
    intro proj x h
    rw [firstQualifying]
    by_cases hc : (isDomain x g.domainName && (lookupA (proj g) x).isSome) = true
    · rw [if_pos hc]
      have hc2 := hc
      simp only [Bool.and_eq_true] at hc2
      exact hc2.2
    · rw [if_neg hc]
      obtain ⟨g2, hg2, hd2, hs2⟩ := h
      rcases List.mem_cons.mp hg2 with rfl | hm
      · exact absurd (by rw [Bool.and_eq_true]; exact ⟨hd2, hs2⟩) hc
      · exact ih proj x ⟨g2, hm, hd2, hs2⟩

theorem addParsedEdge_fields (st : List Url × Subgraph) (src dest : Url) :
    ∃ O1 : List (Url × Nat),
      (O1 = st.2.outLinks ∨ O1 = insertA st.2.outLinks src 0) ∧
      (addParsedEdge st src dest).2.outLinks = insertA O1 src (lookupD O1 src 0 + 1) ∧
      (addParsedEdge st src dest).2.adjacencyList =
        insertA st.2.adjacencyList dest (lookupD st.2.adjacencyList dest [] ++ [src]) ∧
      (addParsedEdge st src dest).2.domainName = st.2.domainName := by
  simp only [addParsedEdge]
  split
  · split
    · exact ⟨st.2.outLinks, Or.inl rfl, rfl, rfl, rfl⟩
    · exact ⟨st.2.outLinks, Or.inl rfl, rfl, rfl, rfl⟩
  · split
    · exact ⟨insertA st.2.outLinks src 0, Or.inr rfl, rfl, rfl, rfl⟩
    · exact ⟨insertA st.2.outLinks src 0, Or.inr rfl, rfl, rfl, rfl⟩

theorem addParsedEdge_inv (st : List Url × Subgraph) (src dest : Url)
    (hsrc : isDomain src st.2.domainName = true)
    (hadj : adjInvariant st.2) (hout : outLinksOk st.2) :
    (addParsedEdge st src dest).2.domainName = st.2.domainName ∧
    adjInvariant (addParsedEdge st src dest).2 ∧
    outLinksOk (addParsedEdge st src dest).2 := by
  obtain ⟨O1, hO1, hOut, hAdj, hDom⟩ := addParsedEdge_fields st src dest
  have hO1look : ∀ n, ¬ src = n → lookupA O1 n = lookupA st.2.outLinks n := by
    intro n hn
    rcases hO1 with rfl | rfl
    · rfl
    · rw [lookupA_insertA, if_neg hn]
  have houtF : outLinksOk (addParsedEdge st src dest).2 := by
    intro n k hk
    rw [hOut, lookupA_insertA] at hk
    rw [hDom]
    by_cases hn : src = n
    · rw [if_pos hn] at hk
      obtain rfl := Option.some.inj hk
      exact ⟨Nat.succ_le_succ (Nat.zero_le _), hn ▸ hsrc⟩
    · rw [if_neg hn, hO1look n hn] at hk
      exact hout n k hk
  have hstep : ∀ n2, (outEntryOk st.2 n2 ∨ n2 = src) →
      outEntryOk (addParsedEdge st src dest).2 n2 := by
    intro n2 hc
    by_cases hn2 : src = n2
    · exact ⟨lookupD O1 src 0 + 1,
        by rw [hOut, lookupA_insertA, if_pos hn2, hn2],
        Nat.succ_le_succ (Nat.zero_le _)⟩
    · rcases hc with ⟨k, hk, h1⟩ | rfl
      · exact ⟨k, by rw [hOut, lookupA_insertA, if_neg hn2, hO1look n2 hn2]; exact hk, h1⟩
      · exact absurd rfl (fun h => hn2 h.symm)
  refine ⟨hDom, ?_, houtF⟩
  intro m ns hm n hn
  rw [hAdj, lookupA_insertA] at hm
  by_cases hmd : dest = m
  · rw [if_pos hmd] at hm
    obtain rfl := Option.some.inj hm
    rcases List.mem_append.mp hn with h | h
    · rw [lookupD] at h
      cases hl : lookupA st.2.adjacencyList dest with
      | none => rw [hl] at h; simp at h
      | some vs =>
        rw [hl] at h
        exact hstep n (Or.inl (hadj dest vs hl n h))
    · rw [List.mem_singleton] at h
      exact hstep n (Or.inr h)
  · rw [if_neg hmd] at hm
    exact hstep n (Or.inl (hadj m ns hm n hn))

theorem readDotFileByDomain_invariant (lines : List Url) (domain : Url) :
    adjInvariant (readDotFileByDomain lines domain) ∧
    outLinksOk (readDotFileByDomain lines domain) ∧
    (readDotFileByDomain lines domain).domainName = domain := by
  rw [readDotFileByDomain]
  have key : ∀ (ls : List Url) (st : List Url × Subgraph),
      st.2.domainName = domain → adjInvariant st.2 → outLinksOk st.2 →
      adjInvariant (ls.foldl (lineStepByDomain domain) st).2 ∧
      outLinksOk (ls.foldl (lineStepByDomain domain) st).2 ∧
      (ls.foldl (lineStepByDomain domain) st).2.domainName = domain := by
    intro ls
    induction ls with
    | nil =>
      intro st h1 h2 h3
      rw [List.foldl_nil]
      exact ⟨h2, h3, h1⟩
    | cons l rest ih =>
      intro st h1 h2 h3
      rw [List.foldl_cons, lineStepByDomain_eq_parse]
      cases hp : parseLine l with
      | none => exact ih st h1 h2 h3
      | some e =>
        dsimp only
        by_cases hd : isDomain e.1 domain = true
        · rw [if_pos hd]
          obtain ⟨hdom2, hadj2, hout2⟩ :=
            addParsedEdge_inv st e.1 e.2 (by rw [h1]; exact hd) h2 h3
          exact ih _ (hdom2.trans h1) hadj2 hout2
        · rw [if_neg hd]
          exact ih st h1 h2 h3
  have init1 : adjInvariant ({ newSubgraph with domainName := domain }) := by
    intro m ns hm
    simp [lookupA] at hm
  have init2 : outLinksOk ({ newSubgraph with domainName := domain }) := by
    intro n k hk
    simp [lookupA] at hk
  exact key lines ([], { newSubgraph with domainName := domain }) rfl init1 init2

theorem combine_adjInvariant (gs : List Subgraph)
    (h : ∀ g ∈ gs, adjInvariant g ∧ outLinksOk g) :
    adjInvariant (combineSubgraphs gs) := by
  intro m ns hm n hn
  have hm2 : firstQualifying gs (fun g => g.adjacencyList) m = some ns := by
    rw [← mergeMaps_lookup]
    exact hm
  obtain ⟨gP, hgP, hdP, hlP⟩ := firstQualifying_some gs _ m ns hm2
  obtain ⟨k, hk, hk1⟩ := (h gP hgP).1 m ns hlP n hn
  have hdn : isDomain n gP.domainName = true := ((h gP hgP).2 n k hk).2
  have hsome : (firstQualifying gs (fun g => g.outLinks) n).isSome = true :=
    firstQualifying_isSome_of_exists gs _ n ⟨gP, hgP, hdn, by rw [hk]; rfl⟩
  obtain ⟨v, hv⟩ := Option.isSome_iff_exists.mp hsome
  obtain ⟨g0, hg0, hd0, hl0⟩ := firstQualifying_some gs _ n v hv
  refine ⟨v, ?_, ((h g0 hg0).2 n v hl0).1⟩
  show lookupA (mergeMaps gs (fun g => g.outLinks)) n = some v
  rw [mergeMaps_lookup]
  exact hv

/-- C3.  The out-degree invariant: (i) every partition built by
`readDotFileByDomain` satisfies it (together with: every `outLinks` binding
is at least 1 and owned by the partition's domain); (ii) `combineSubgraphs`
preserves it for any partitions satisfying those construction invariants;
(iii) the engine preserves it (it never touches the two maps).  So the
prestige division `rankPrev[m] / outDegree[m]` never divides by zero. -/
theorem c3_out_degree_invariant :
    (∀ (lines : List Url) (domain : Url),
        adjInvariant (readDotFileByDomain lines domain) ∧
        outLinksOk (readDotFileByDomain lines domain)) ∧
    (∀ gs : List Subgraph, (∀ g ∈ gs, adjInvariant g ∧ outLinksOk g) →
        adjInvariant (combineSubgraphs gs)) ∧
    (∀ (d epsilon : ℚ) (fuel : Nat) (g g2 : Subgraph),
        pageRankRun d epsilon fuel g = some g2 → adjInvariant g → adjInvariant g2) := by
  refine ⟨fun lines domain => ⟨(readDotFileByDomain_invariant lines domain).1,
    (readDotFileByDomain_invariant lines domain).2.1⟩, combine_adjInvariant, ?_⟩
  intro d epsilon fuel g g2 hrun hinv m ns hm n hn
  obtain ⟨-, -, hadjf, houtf⟩ := pageRankRun_frame d epsilon fuel g g2 hrun
  rw [hadjf] at hm
  obtain ⟨k, hk, h1⟩ := hinv m ns hm n hn
  exact ⟨k, by rw [houtf]; exact hk, h1⟩

/-- C3 (witness): on the concrete two-domain stream, the merged graph's
in-neighbour `a.x.calpoly.edu` of `c.x.calpoly.edu` has an out-degree entry
of at least 1. -/
theorem c3_witness :
    outEntryOk (combineSubgraphs [readDotFileByDomain c1lines (str "x")])
      (str "a.x.calpoly.edu") := by
  have hpart := c3_out_degree_invariant.1 c1lines (str "x")
  have hmerged := c3_out_degree_invariant.2.1 [readDotFileByDomain c1lines (str "x")]
    (by
      intro g hg
      rcases List.mem_singleton.mp hg with rfl
      exact hpart)
  exact hmerged (str "c.x.calpoly.edu") [str "a.x.calpoly.edu"] (by decide)
    (str "a.x.calpoly.edu") (by decide)

/-- C8 (corrected, amended form).  For each of the four per-node structures
(`nodes` membership, `adjacencyList`, `outLinks`, `pageRankNew`),
`combineSubgraphs` keeps exactly the entries whose key passes the exporting
partition's own ownership containment test `isDomain` (key contains
`domainKey ++ ".calpoly.edu"` — not equality of the extracted domain key),
and when several partitions qualify for the same key, the FIRST partition
in processing order wins and later duplicates are dropped. -/
theorem c8_merge_ownership_filter_first_wins :
    (∀ (gs : List Subgraph) (url : Url),
        lookupA (combineSubgraphs gs).adjacencyList url =
          firstQualifying gs (fun g => g.adjacencyList) url) ∧
    (∀ (gs : List Subgraph) (url : Url),
        lookupA (combineSubgraphs gs).outLinks url =
          firstQualifying gs (fun g => g.outLinks) url) ∧
    (∀ (gs : List Subgraph) (url : Url),
        lookupA (combineSubgraphs gs).pageRankNew url =
          firstQualifying gs (fun g => g.pageRankNew) url) ∧
    (∀ (gs : List Subgraph) (url : Url),
        url ∈ (combineSubgraphs gs).nodes ↔
          ∃ g ∈ gs, isDomain url g.domainName = true ∧ url ∈ g.nodes) :=
  ⟨fun gs url => mergeMaps_lookup gs _ url, fun gs url => mergeMaps_lookup gs _ url,
   fun gs url => mergeMaps_lookup gs _ url, fun gs url => mergeNodes_mem gs url⟩

/-- C8 (counterexample).  A partition with `domainKey = "y"` exports the
node `c.xy.calpoly.edu` into the global graph (the containment test
passes via the `"...xy.calpoly.edu"` substring), although the domain key
extracted from that node is `"xy" ≠ "y"`: the merge filter is NOT "key
node's domain equals the exporting partition's domainKey". -/
theorem c8_counterexample :
    lookupA (combineSubgraphs
        [readDotFileByDomain [str "c.xy.calpoly.edu -> d"] (str "y")]).outLinks
      (str "c.xy.calpoly.edu") = some 1 ∧
    (str "c.xy.calpoly.edu") ∈ (combineSubgraphs
        [readDotFileByDomain [str "c.xy.calpoly.edu -> d"] (str "y")]).nodes ∧
    srcDomainKeys (str "c.xy.calpoly.edu") = [str "xy"] ∧
    (str "xy" : Url) ≠ str "y" :=
  ⟨by decide, by decide, by decide, by decide⟩

/-- C8 (witness): two partitions both export `c.xy.calpoly.edu`
(out-degrees 1 and 2); the merged value is the first partition's. -/
theorem c8_witness :
    lookupA (combineSubgraphs
        [readDotFileByDomain [str "c.xy.calpoly.edu -> d"] (str "y"),
         readDotFileByDomain [str "c.xy.calpoly.edu -> d", str "c.xy.calpoly.edu -> e"]
           (str "xy")]).outLinks (str "c.xy.calpoly.edu") =
      firstQualifying
        [readDotFileByDomain [str "c.xy.calpoly.edu -> d"] (str "y"),
         readDotFileByDomain [str "c.xy.calpoly.edu -> d", str "c.xy.calpoly.edu -> e"]
           (str "xy")] (fun g => g.outLinks) (str "c.xy.calpoly.edu") ∧
    firstQualifying
        [readDotFileByDomain [str "c.xy.calpoly.edu -> d"] (str "y"),
         readDotFileByDomain [str "c.xy.calpoly.edu -> d", str "c.xy.calpoly.edu -> e"]
           (str "xy")] (fun g => g.outLinks) (str "c.xy.calpoly.edu") = some 1 ∧
    lookupA (readDotFileByDomain [str "c.xy.calpoly.edu -> d", str "c.xy.calpoly.edu -> e"]
        (str "xy")).outLinks (str "c.xy.calpoly.edu") = some 2 :=
  ⟨c8_merge_ownership_filter_first_wins.2.1 _ _, by decide, by decide⟩

/-- C2 (witness): a concrete instantiation of the ownership
characterization. -/
theorem c2_witness :
    readDotFileByDomain [str "a.x.calpoly.edu -> b"] (str "x") =
      buildPartitionFromEdges (str "x")
        (([str "a.x.calpoly.edu -> b"].filterMap parseLine).filter
          (fun e => isDomain e.1 (str "x"))) :=
  c2_ownership_is_source_containment _ _

/-- C7 (witness): a concrete instantiation of the line-shape
characterization. -/
theorem c7_witness :
    readDotFile [str "a -> b"] = buildFromEdges ([str "a -> b"].filterMap parseLine) :=
  c7_line_shape.1 _
